import Mathlib

/-!
Verification development for the Ara DWT application (`apps/dwt`).

The repository computes a forward discrete wavelet transform with the 2-tap
Haar filter pair, once with a scalar kernel and once with a vector kernel,
and compares the two output buffers element-wise against an absolute
threshold of 0.01 (`main.c`).

Embedding conventions:

* Float values are modelled by exact arithmetic in the ring `Q2 = ℚ + ℚ·√2`
  (pairs of rationals), which contains the Haar coefficient `1/√2 = √2/2`
  exactly and every finite float value (floats are rationals).  `Q2.toReal`
  maps a `Q2` value to the real number it denotes; statements about
  magnitudes and tolerances are phrased over `ℝ` through this map.
* Buffers are total maps `ℕ → Q2`; the kernels read and write only the
  active prefix, which the lemmas below make explicit.
* The bodies of `dwt_step`, `dwt_step_vector`, `gsl_wavelet_transform` and
  `gsl_wavelet_transform_vector` are declared in `kernel/wavelet.h` but not
  present under `src/`; they are modelled from the specification (sections
  4.2-4.4 and 9) as indicated on each definition.
* The driver loop is written with an explicit fuel argument so that it is
  structurally recursive; fuel `n` always suffices because the active
  length halves each iteration (proved below), so the fuel is an encoding
  artifact, not a semantic bound.
* `similarity_check` and the error-accumulation loop of `main` are taken
  directly from `main.c`; doubles are modelled by `FP`, a rational value or
  a NaN, with the IEEE rule that every `<` comparison involving NaN is
  false, which is the behaviour the C comparison operators have on NaN.
-/

namespace DWT

/-- The ring `ℚ + ℚ·√2`: `⟨a, b⟩` denotes the real number `a + b·√2`.
This is the exact-arithmetic carrier used to embed the float computation. -/
structure Q2 where
  a : ℚ
  b : ℚ
deriving DecidableEq

instance : Zero Q2 := ⟨⟨0, 0⟩⟩

instance : One Q2 := ⟨⟨1, 0⟩⟩

instance : Add Q2 := ⟨fun x y => ⟨x.a + y.a, x.b + y.b⟩⟩

instance : Neg Q2 := ⟨fun x => ⟨-x.a, -x.b⟩⟩

instance : Mul Q2 := ⟨fun x y => ⟨x.a * y.a + 2 * x.b * y.b, x.a * y.b + x.b * y.a⟩⟩

instance q2acg : AddCommGroup Q2 where
  nsmul := nsmulRec
  zsmul := zsmulRec
  add_assoc := by
    rintro ⟨xa, xb⟩ ⟨ya, yb⟩ ⟨za, zb⟩
    have h : ∀ u v : Q2, u + v = ⟨u.a + v.a, u.b + v.b⟩ := fun _ _ => rfl
    simp only [h, Q2.mk.injEq]
    constructor <;> ring
  zero_add := by
    rintro ⟨xa, xb⟩
    have h : ∀ u v : Q2, u + v = ⟨u.a + v.a, u.b + v.b⟩ := fun _ _ => rfl
    have hz : (0 : Q2) = ⟨0, 0⟩ := rfl
    simp only [h, hz, Q2.mk.injEq]
    constructor <;> ring
  add_zero := by
    rintro ⟨xa, xb⟩
    have h : ∀ u v : Q2, u + v = ⟨u.a + v.a, u.b + v.b⟩ := fun _ _ => rfl
    have hz : (0 : Q2) = ⟨0, 0⟩ := rfl
    simp only [h, hz, Q2.mk.injEq]
    constructor <;> ring
  add_comm := by
    rintro ⟨xa, xb⟩ ⟨ya, yb⟩
    have h : ∀ u v : Q2, u + v = ⟨u.a + v.a, u.b + v.b⟩ := fun _ _ => rfl
    simp only [h, Q2.mk.injEq]
    constructor <;> ring
  neg_add_cancel := by
    rintro ⟨xa, xb⟩
    have h : ∀ u v : Q2, u + v = ⟨u.a + v.a, u.b + v.b⟩ := fun _ _ => rfl
    have hn : ∀ u : Q2, -u = ⟨-u.a, -u.b⟩ := fun _ => rfl
    have hz : (0 : Q2) = ⟨0, 0⟩ := rfl
    simp only [h, hn, hz, Q2.mk.injEq]
    constructor <;> ring

instance : CommRing Q2 where
  __ := q2acg
  mul_assoc := by
    rintro ⟨xa, xb⟩ ⟨ya, yb⟩ ⟨za, zb⟩
    have h : ∀ u v : Q2, u * v = ⟨u.a * v.a + 2 * u.b * v.b, u.a * v.b + u.b * v.a⟩ :=
      fun _ _ => rfl
    simp only [h, Q2.mk.injEq]
    constructor <;> ring
  one_mul := by
    rintro ⟨xa, xb⟩
    have h : ∀ u v : Q2, u * v = ⟨u.a * v.a + 2 * u.b * v.b, u.a * v.b + u.b * v.a⟩ :=
      fun _ _ => rfl
    have ho : (1 : Q2) = ⟨1, 0⟩ := rfl
    simp only [h, ho, Q2.mk.injEq]
    constructor <;> ring
  mul_one := by
    rintro ⟨xa, xb⟩
    have h : ∀ u v : Q2, u * v = ⟨u.a * v.a + 2 * u.b * v.b, u.a * v.b + u.b * v.a⟩ :=
      fun _ _ => rfl
    have ho : (1 : Q2) = ⟨1, 0⟩ := rfl
    simp only [h, ho, Q2.mk.injEq]
    constructor <;> ring
  mul_comm := by
    rintro ⟨xa, xb⟩ ⟨ya, yb⟩
    have h : ∀ u v : Q2, u * v = ⟨u.a * v.a + 2 * u.b * v.b, u.a * v.b + u.b * v.a⟩ :=
      fun _ _ => rfl
    simp only [h, Q2.mk.injEq]
    constructor <;> ring
  left_distrib := by
    rintro ⟨xa, xb⟩ ⟨ya, yb⟩ ⟨za, zb⟩
    have h : ∀ u v : Q2, u * v = ⟨u.a * v.a + 2 * u.b * v.b, u.a * v.b + u.b * v.a⟩ :=
      fun _ _ => rfl
    have ha : ∀ u v : Q2, u + v = ⟨u.a + v.a, u.b + v.b⟩ := fun _ _ => rfl
    simp only [h, ha, Q2.mk.injEq]
    constructor <;> ring
  right_distrib := by
    rintro ⟨xa, xb⟩ ⟨ya, yb⟩ ⟨za, zb⟩
    have h : ∀ u v : Q2, u * v = ⟨u.a * v.a + 2 * u.b * v.b, u.a * v.b + u.b * v.a⟩ :=
      fun _ _ => rfl
    have ha : ∀ u v : Q2, u + v = ⟨u.a + v.a, u.b + v.b⟩ := fun _ _ => rfl
    simp only [h, ha, Q2.mk.injEq]
    constructor <;> ring
  zero_mul := by
    rintro ⟨xa, xb⟩
    have h : ∀ u v : Q2, u * v = ⟨u.a * v.a + 2 * u.b * v.b, u.a * v.b + u.b * v.a⟩ :=
      fun _ _ => rfl
    have hz : (0 : Q2) = ⟨0, 0⟩ := rfl
    simp only [h, hz, Q2.mk.injEq]
    constructor <;> ring
  mul_zero := by
    rintro ⟨xa, xb⟩
    have h : ∀ u v : Q2, u * v = ⟨u.a * v.a + 2 * u.b * v.b, u.a * v.b + u.b * v.a⟩ :=
      fun _ _ => rfl
    have hz : (0 : Q2) = ⟨0, 0⟩ := rfl
    simp only [h, hz, Q2.mk.injEq]
    constructor <;> ring

/-- The real number denoted by a `Q2` value. -/
noncomputable def Q2.toReal (x : Q2) : ℝ := (x.a : ℝ) + (x.b : ℝ) * Real.sqrt 2

/-- The exact value `1/√2 = √2/2` of the float literal
`0.70710678118654752440f` used for both Haar coefficients in `wavelet.h`. -/
def sqrtHalf : Q2 := ⟨0, 1 / 2⟩

/-- Low-pass (scaling) filter `ch_2` of `wavelet.h` line 8:
both entries are `1/√2`. -/
def ch_2 : List Q2 := [sqrtHalf, sqrtHalf]

/-- High-pass (wavelet) filter `cg_2` of `wavelet.h` line 9:
the entries are `1/√2` and `-(1/√2)`. -/
def cg_2 : List Q2 := [sqrtHalf, -sqrtHalf]

/-- The `gsl_wavelet` descriptor of `wavelet.h` lines 25-33: filter pointers
`h1`, `g1`, the number of filter components `nc`, and the centering
`offset`. -/
structure gsl_wavelet where
  h1 : List Q2
  g1 : List Q2
  nc : ℕ
  offset : ℕ
deriving DecidableEq

/-- The Haar/2-tap wavelet configuration: the `ch_2`/`cg_2` pair, `nc = 2`,
centering offset `0`. -/
def haarWavelet : gsl_wavelet := { h1 := ch_2, g1 := cg_2, nc := 2, offset := 0 }

/-- Modelled from the spec: the descriptor lookup behind `gsl_wavelet_type`
(`wavelet.h` lines 16-23) is only declared as a function-pointer field and
its body is not under `src/`; section 6 of the spec requires
`init(name) -> (h, g, nc, offset)` to succeed for the single supported
Haar/2-tap family name and to return an error indicator for every other
name.  The supported name is written `"haar"` here. -/
def wavelet_init (s : String) : Option gsl_wavelet :=
  if s = "haar" then some haarWavelet else none

/-- Periodic buffer index `(2*i + k - offset) mod m` of the spec formula in
section 4.2, computed over `ℤ` and mapped back to `ℕ` (the result of `%`
on a positive modulus is non-negative). -/
def buffIdx (m off i k : ℕ) : ℕ := ((2 * (i : ℤ) + k - off) % (m : ℤ)).toNat

/-- Approximation coefficient `a[i] = Σ_{k<nc} h[k] * x[(2i+k-offset) mod m]`
of spec section 4.2. -/
def aCoef (w : gsl_wavelet) (m : ℕ) (x : ℕ → Q2) (i : ℕ) : Q2 :=
  ∑ k in Finset.range w.nc, w.h1.getD k 0 * x (buffIdx m w.offset i k)

/-- Detail coefficient `d[i] = Σ_{k<nc} g[k] * x[(2i+k-offset) mod m]`
of spec section 4.2. -/
def dCoef (w : gsl_wavelet) (m : ℕ) (x : ℕ → Q2) (i : ℕ) : Q2 :=
  ∑ k in Finset.range w.nc, w.g1.getD k 0 * x (buffIdx m w.offset i k)

/-- Point update of a buffer: write `v` at position `i`. -/
def updateFn (f : ℕ → Q2) (i : ℕ) (v : Q2) : ℕ → Q2 :=
  fun j => if j = i then v else f j

/-- One iteration of the scratch-filling loop of spec section 4.2: write
`a[i]` to scratch slot `i` and `d[i]` to scratch slot `m/2 + i`. -/
def writePair (w : gsl_wavelet) (m : ℕ) (x buf : ℕ → Q2) (i : ℕ) : ℕ → Q2 :=
  updateFn (updateFn buf i (aCoef w m x i)) (m / 2 + i) (dCoef w m x i)

/-- Run the scratch-filling loop for output pair indices
`start, start+1, ..., start+cnt-1` (in increasing order, as a C `for` loop
does). -/
def fillFrom (w : gsl_wavelet) (m : ℕ) (x buf : ℕ → Q2) (start : ℕ) : ℕ → ℕ → Q2
  | 0 => buf
  | cnt + 1 => writePair w m x (fillFrom w m x buf start cnt) (start + cnt)

/-- Modelled from the spec: the scalar step kernel `dwt_step` is declared in
`wavelet.h` line 42 but its body is not under `src/`.  Spec section 4.2: for
each output pair index `i` in `[0, m/2)` write `a[i]` to scratch position
`i` and `d[i]` to scratch position `m/2 + i`, then copy the `m` scratch
entries back into the first `m` entries of the buffer.  The result is the
pair (updated buffer, updated scratch). -/
def dwt_step (w : gsl_wavelet) (m : ℕ) (x s : ℕ → Q2) : (ℕ → Q2) × (ℕ → Q2) :=
  (fun j => if j < m then fillFrom w m x s 0 (m / 2) j else x j,
   fillFrom w m x s 0 (m / 2))

/-- Main vector loop of spec sections 4.3 and 9: process `c` full chunks of
`vl` output pair indices each, in increasing order, with the same
write-pair body as the scalar loop. -/
def chunkLoop (vl : ℕ) (w : gsl_wavelet) (m : ℕ) (x buf : ℕ → Q2) : ℕ → ℕ → Q2
  | 0 => buf
  | c + 1 => fillFrom w m x (chunkLoop vl w m x buf c) (c * vl) vl

/-- Modelled from the spec: the vector step kernel `dwt_step_vector` is
declared in `wavelet.h` line 43 but its body is not under `src/`.  Spec
sections 4.3 and 9: produce the output index set `[0, m/2)` via a main loop
processing full lane-width (`vl`) chunks plus an explicit tail loop for the
remainder, both sharing the identical periodic-indexing formula of the
scalar kernel, then copy back as in the scalar kernel. -/
def dwt_step_vector (vl : ℕ) (w : gsl_wavelet) (m : ℕ) (x s : ℕ → Q2) :
    (ℕ → Q2) × (ℕ → Q2) :=
  (fun j => if j < m
      then fillFrom w m x (chunkLoop vl w m x s (m / 2 / vl)) (m / 2 / vl * vl)
             (m / 2 - m / 2 / vl * vl) j
      else x j,
   fillFrom w m x (chunkLoop vl w m x s (m / 2 / vl)) (m / 2 / vl * vl)
     (m / 2 - m / 2 / vl * vl))

/-- Modelled from the spec: the transform driver state machine of section
4.4, parametric in the step kernel it invokes.  `active = m` starts at `n`;
while `active ≥ nc = 2` the step kernel runs on the prefix `[0, active)`
and `active` is halved; the loop stops when `active < 2`.  The `fuel`
argument makes the recursion structural; any `fuel ≥ m` gives the loop
exactly its C semantics (proved below as fuel-irrelevance). -/
def driverAux (step : ℕ → (ℕ → Q2) → (ℕ → Q2) → (ℕ → Q2) × (ℕ → Q2)) :
    ℕ → ℕ → (ℕ → Q2) → (ℕ → Q2) → ℕ → Q2
  | 0, _, x, _ => x
  | fuel + 1, m, x, s =>
    if 2 ≤ m then driverAux step fuel (m / 2) (step m x s).1 (step m x s).2 else x

/-- Modelled from the spec: the scalar transform driver
`gsl_wavelet_transform` declared in `wavelet.h` line 40, i.e. the section
4.4 state machine over the scalar step kernel with the Haar wavelet. -/
def gsl_wavelet_transform (n : ℕ) (data scratch : ℕ → Q2) : ℕ → Q2 :=
  driverAux (dwt_step haarWavelet) n n data scratch

/-- Modelled from the spec: the vector transform driver
`gsl_wavelet_transform_vector` declared in `wavelet.h` line 41, i.e. the
section 4.4 state machine over the vector step kernel (lane width `vl`)
with the Haar wavelet. -/
def gsl_wavelet_transform_vector (vl n : ℕ) (data scratch : ℕ → Q2) : ℕ → Q2 :=
  driverAux (dwt_step_vector vl haarWavelet) n n data scratch

/-- Number of pyramid levels the section 4.4 driver loop performs before
`active` falls below `nc = 2`, with the same fuel encoding as
`driverAux`. -/
def numLevelsAux : ℕ → ℕ → ℕ
  | 0, _ => 0
  | fuel + 1, m => if 2 ≤ m then numLevelsAux fuel (m / 2) + 1 else 0

/-- Number of pyramid levels performed by a transform of length `n`. -/
def numLevels (n : ℕ) : ℕ := numLevelsAux n n

/-- A C `double` as used by the comparison in `main.c`: either a rational
value or a NaN.  Any `<` comparison involving NaN is false (IEEE 754),
which is all the checker code observes about NaN. -/
inductive FP where
  | nan : FP
  | val : ℚ → FP
deriving DecidableEq

/-- Subtraction `a - b` of doubles: NaN propagates. -/
def FP.sub : FP → FP → FP
  | FP.val p, FP.val q => FP.val (p - q)
  | _, _ => FP.nan

/-- Negation `-x` of a double: NaN propagates. -/
def FP.neg : FP → FP
  | FP.val p => FP.val (-p)
  | FP.nan => FP.nan

/-- The C comparison `x < y` on doubles: false whenever either side is
NaN. -/
def FP.blt : FP → FP → Bool
  | FP.val p, FP.val q => decide (p < q)
  | _, _ => false

/-- The `FABS` macro of `main.c` line 30: `((x < 0) ? -x : x)`. -/
def fabsFP (x : FP) : FP := if FP.blt x (FP.val 0) then FP.neg x else x

/-- The `THRESHOLD` constant of `main.c` line 29 (`0.01`). -/
def THRESHOLD : ℚ := 1 / 100

/-- `similarity_check` of `main.c` lines 32-38: returns `0` when
`FABS(a - b) > threshold` and `1` otherwise. -/
def similarity_check (a b threshold : FP) : ℤ :=
  if FP.blt threshold (fabsFP (FP.sub a b)) then 0 else 1

/-- The check loop of `main.c` lines 81-88 after both transforms have run:
`error` starts at `0` and is set to `1` at every index whose
`similarity_check` fails; `mainError ds dv n` is the value of `error`
after the indices `0, ..., n-1` have been processed, which `main`
returns. -/
def mainError (ds dv : ℕ → FP) : ℕ → ℤ
  | 0 => 0
  | i + 1 =>
    if similarity_check (ds i) (dv i) (FP.val THRESHOLD) = 0 then 1
    else mainError ds dv i

/-- Buffer of rational-valued doubles. -/
def valBuf (f : ℕ → ℚ) : ℕ → FP := fun i => FP.val (f i)

/-- The all-ones input buffer of the spec section 8 scenario. -/
def bufOnes : ℕ → Q2 := fun _ => 1

/-- The all-zeros buffer (used as a concrete scratch buffer). -/
def bufZero : ℕ → Q2 := fun _ => 0

/-- A ramp buffer `j ↦ j` (used as a concrete input witness). -/
def bufRamp : ℕ → Q2 := fun j => ⟨(j : ℚ), 0⟩

/-- Rational ramp buffer for the checker witnesses. -/
def rampQ : ℕ → ℚ := fun j => (j : ℚ)

/-- Rational buffer that differs from zero only at index 1 (checker
witness). -/
def spikeQ : ℕ → ℚ := fun j => if j = 1 then 1 else 0

/-- The all-zeros rational buffer (checker witness). -/
def zeroQ : ℕ → ℚ := fun _ => 0

/-- State of the all-ones length-8 buffer after the first pyramid level
(approximations `√2` in `[0,4)`, details `0` in `[4,8)`). -/
def lvlA : ℕ → Q2 := fun j => if j < 4 then ⟨0, 1⟩ else if j < 8 then 0 else 1

/-- State of the all-ones length-8 buffer after the second pyramid level
(approximations `2` in `[0,2)`, details `0` in `[2,8)`). -/
def lvlB : ℕ → Q2 := fun j => if j < 2 then ⟨2, 0⟩ else if j < 8 then 0 else 1

/-- State of the all-ones length-8 buffer after the third pyramid level
(`2√2` at index 0, `0` at `[1,8)`). -/
def lvlC : ℕ → Q2 := fun j => if j = 0 then ⟨0, 2⟩ else if j < 8 then 0 else 1

lemma Q2.add_a (x y : Q2) : (x + y).a = x.a + y.a := rfl

lemma Q2.add_b (x y : Q2) : (x + y).b = x.b + y.b := rfl

lemma Q2.mul_a (x y : Q2) : (x * y).a = x.a * y.a + 2 * x.b * y.b := rfl

lemma Q2.mul_b (x y : Q2) : (x * y).b = x.a * y.b + x.b * y.a := rfl

lemma Q2.neg_a (x : Q2) : (-x).a = -x.a := rfl

lemma Q2.neg_b (x : Q2) : (-x).b = -x.b := rfl

lemma Q2.zero_a : (0 : Q2).a = 0 := rfl

lemma Q2.zero_b : (0 : Q2).b = 0 := rfl

lemma Q2.one_a : (1 : Q2).a = 1 := rfl

lemma Q2.one_b : (1 : Q2).b = 0 := rfl

lemma Q2.add_def (p q r t : ℚ) : (⟨p, q⟩ + ⟨r, t⟩ : Q2) = ⟨p + r, q + t⟩ := rfl

lemma Q2.mul_def (p q r t : ℚ) :
    (⟨p, q⟩ * ⟨r, t⟩ : Q2) = ⟨p * r + 2 * q * t, p * t + q * r⟩ := rfl

lemma Q2.neg_def (p q : ℚ) : (-(⟨p, q⟩ : Q2)) = ⟨-p, -q⟩ := rfl

lemma fillFrom_zero (w : gsl_wavelet) (m : ℕ) (x buf : ℕ → Q2) (start : ℕ) :
    fillFrom w m x buf start 0 = buf := rfl

lemma fillFrom_succ (w : gsl_wavelet) (m : ℕ) (x buf : ℕ → Q2) (start cnt : ℕ) :
    fillFrom w m x buf start (cnt + 1) =
      writePair w m x (fillFrom w m x buf start cnt) (start + cnt) := rfl

lemma driverAux_zero (step : ℕ → (ℕ → Q2) → (ℕ → Q2) → (ℕ → Q2) × (ℕ → Q2))
    (m : ℕ) (x s : ℕ → Q2) : driverAux step 0 m x s = x := rfl

lemma driverAux_succ (step : ℕ → (ℕ → Q2) → (ℕ → Q2) → (ℕ → Q2) × (ℕ → Q2))
    (fuel m : ℕ) (x s : ℕ → Q2) :
    driverAux step (fuel + 1) m x s =
      if 2 ≤ m then driverAux step fuel (m / 2) (step m x s).1 (step m x s).2
      else x := rfl

lemma fillFrom_apply (w : gsl_wavelet) (m : ℕ) (x buf : ℕ → Q2) (start : ℕ) :
    ∀ cnt, start + cnt ≤ m / 2 → ∀ j,
      fillFrom w m x buf start cnt j =
        if start ≤ j ∧ j < start + cnt then aCoef w m x j
        else if m / 2 + start ≤ j ∧ j < m / 2 + start + cnt then
          dCoef w m x (j - m / 2)
        else buf j := by
  intro cnt
  induction cnt with
  | zero =>
    intro _ j
    simp only [fillFrom]
    split_ifs with h1 h2
    · omega
    · omega
    · rfl
  | succ cnt ih =>
    intro h j
    simp only [fillFrom, writePair, updateFn]
    rw [ih (by omega) j]
    split_ifs <;> first | rfl | omega | (congr 1; omega)

lemma dwt_step_snd_apply (w : gsl_wavelet) (m : ℕ) (x s : ℕ → Q2)
    (hm : m % 2 = 0) (j : ℕ) :
    (dwt_step w m x s).2 j =
      if j < m / 2 then aCoef w m x j
      else if j < m then dCoef w m x (j - m / 2)
      else s j := by
  show fillFrom w m x s 0 (m / 2) j = _
  rw [fillFrom_apply w m x s 0 (m / 2) (by omega) j]
  split_ifs <;> first | rfl | omega

lemma dwt_step_fst_apply (w : gsl_wavelet) (m : ℕ) (x s : ℕ → Q2)
    (hm : m % 2 = 0) (j : ℕ) :
    (dwt_step w m x s).1 j =
      if j < m / 2 then aCoef w m x j
      else if j < m then dCoef w m x (j - m / 2)
      else x j := by
  show (if j < m then fillFrom w m x s 0 (m / 2) j else x j) = _
  rw [fillFrom_apply w m x s 0 (m / 2) (by omega) j]
  split_ifs <;> first | rfl | omega

lemma fillFrom_append (w : gsl_wavelet) (m : ℕ) (x buf : ℕ → Q2) (start a : ℕ) :
    ∀ b, fillFrom w m x buf start (a + b) =
      fillFrom w m x (fillFrom w m x buf start a) (start + a) b := by
  intro b
  induction b with
  | zero => rfl
  | succ b ih =>
    have h1 : a + (b + 1) = (a + b) + 1 := by omega
    have h2 : start + (a + b) = start + a + b := by omega
    rw [h1, fillFrom_succ, ih, fillFrom_succ, h2]

lemma chunkLoop_eq (vl : ℕ) (w : gsl_wavelet) (m : ℕ) (x buf : ℕ → Q2) :
    ∀ c, chunkLoop vl w m x buf c = fillFrom w m x buf 0 (c * vl) := by
  intro c
  induction c with
  | zero => rw [Nat.zero_mul]; rfl
  | succ c ih =>
    show fillFrom w m x (chunkLoop vl w m x buf c) (c * vl) vl =
      fillFrom w m x buf 0 ((c + 1) * vl)
    rw [ih, show (c + 1) * vl = c * vl + vl by ring,
      fillFrom_append w m x buf 0 (c * vl) vl, Nat.zero_add]

lemma dwt_step_vector_eq (vl : ℕ) (w : gsl_wavelet) (m : ℕ) (x s : ℕ → Q2) :
    dwt_step_vector vl w m x s = dwt_step w m x s := by
  have ha : m / 2 / vl * vl ≤ m / 2 := Nat.div_mul_le_self (m / 2) vl
  have hfill : fillFrom w m x (chunkLoop vl w m x s (m / 2 / vl)) (m / 2 / vl * vl)
      (m / 2 - m / 2 / vl * vl) = fillFrom w m x s 0 (m / 2) := by
    rw [chunkLoop_eq]
    have hsum : m / 2 / vl * vl + (m / 2 - m / 2 / vl * vl) = m / 2 := by omega
    have happ :=
      (fillFrom_append w m x s 0 (m / 2 / vl * vl) (m / 2 - m / 2 / vl * vl)).symm
    rw [Nat.zero_add] at happ
    rw [happ, hsum]
  unfold dwt_step_vector dwt_step
  rw [hfill]

lemma transform_vector_eq (vl n : ℕ) (x s : ℕ → Q2) :
    gsl_wavelet_transform_vector vl n x s = gsl_wavelet_transform n x s := by
  have hstep : dwt_step_vector vl haarWavelet = dwt_step haarWavelet := by
    funext m x' s'
    exact dwt_step_vector_eq vl haarWavelet m x' s'
  unfold gsl_wavelet_transform_vector gsl_wavelet_transform
  rw [hstep]

lemma driverAux_low (step : ℕ → (ℕ → Q2) → (ℕ → Q2) → (ℕ → Q2) × (ℕ → Q2))
    (fuel m : ℕ) (x s : ℕ → Q2) (hm : m < 2) : driverAux step fuel m x s = x := by
  cases fuel with
  | zero => rfl
  | succ f => rw [driverAux_succ, if_neg (by omega)]

lemma driverAux_fuel_eq (step : ℕ → (ℕ → Q2) → (ℕ → Q2) → (ℕ → Q2) × (ℕ → Q2)) :
    ∀ fuel1 fuel2 m x s, m ≤ fuel1 → m ≤ fuel2 →
      driverAux step fuel1 m x s = driverAux step fuel2 m x s := by
  intro fuel1
  induction fuel1 with
  | zero =>
    intro fuel2 m x s h1 _
    rw [driverAux_zero, driverAux_low step fuel2 m x s (by omega)]
  | succ f1 ih =>
    intro fuel2 m x s h1 h2
    by_cases hm : 2 ≤ m
    · cases fuel2 with
      | zero => omega
      | succ f2 =>
        rw [driverAux_succ, driverAux_succ, if_pos hm, if_pos hm]
        exact ih f2 (m / 2) _ _ (by omega) (by omega)
    · rw [driverAux_low step (f1 + 1) m x s (by omega),
        driverAux_low step fuel2 m x s (by omega)]

lemma driver_untouched (w : gsl_wavelet) :
    ∀ fuel m x s j, m ≤ j → driverAux (dwt_step w) fuel m x s j = x j := by
  intro fuel
  induction fuel with
  | zero => intro m x s j _; rfl
  | succ f ih =>
    intro m x s j hj
    rw [driverAux_succ]
    split_ifs with h2
    · rw [ih (m / 2) _ _ j (by omega)]
      show (if j < m then fillFrom w m x s 0 (m / 2) j else x j) = x j
      rw [if_neg (by omega)]
    · rfl

lemma buffIdx_lt (m off i k : ℕ) (hm : 1 ≤ m) : buffIdx m off i k < m := by
  unfold buffIdx
  have h0 : (0 : ℤ) < (m : ℤ) := by exact_mod_cast hm
  have h1 := Int.emod_nonneg (2 * (i : ℤ) + k - off) (ne_of_gt h0)
  have h2 := Int.emod_lt_of_pos (2 * (i : ℤ) + k - off) h0
  omega

lemma aCoef_congr (w : gsl_wavelet) (m : ℕ) (x y : ℕ → Q2) (i : ℕ)
    (hm : 1 ≤ m) (hxy : ∀ j, j < m → x j = y j) : aCoef w m x i = aCoef w m y i :=
  Finset.sum_congr rfl fun k _ => by
    rw [hxy (buffIdx m w.offset i k) (buffIdx_lt m w.offset i k hm)]

lemma dCoef_congr (w : gsl_wavelet) (m : ℕ) (x y : ℕ → Q2) (i : ℕ)
    (hm : 1 ≤ m) (hxy : ∀ j, j < m → x j = y j) : dCoef w m x i = dCoef w m y i :=
  Finset.sum_congr rfl fun k _ => by
    rw [hxy (buffIdx m w.offset i k) (buffIdx_lt m w.offset i k hm)]

lemma dwt_step_congr (w : gsl_wavelet) (m : ℕ) (x y s t : ℕ → Q2)
    (hm2 : m % 2 = 0) (hm1 : 1 ≤ m) (hxy : ∀ j, j < m → x j = y j) :
    ∀ j, j < m → (dwt_step w m x s).1 j = (dwt_step w m y t).1 j := by
  intro j hj
  rw [dwt_step_fst_apply w m x s hm2 j, dwt_step_fst_apply w m y t hm2 j]
  split_ifs
  all_goals first
  | exact aCoef_congr w m x y j hm1 hxy
  | exact dCoef_congr w m x y (j - m / 2) hm1 hxy
  | exact hxy j hj

lemma driver_local (w : gsl_wavelet) :
    ∀ fuel l x y s t, (∀ j, j < 2 ^ l → x j = y j) →
      ∀ j, j < 2 ^ l →
        driverAux (dwt_step w) fuel (2 ^ l) x s j =
          driverAux (dwt_step w) fuel (2 ^ l) y t j := by
  intro fuel
  induction fuel with
  | zero => intro l x y s t hxy j hj; exact hxy j hj
  | succ f ih =>
    intro l x y s t hxy j hj
    cases l with
    | zero =>
      rw [driverAux_low _ _ _ _ _ (by norm_num), driverAux_low _ _ _ _ _ (by norm_num)]
      exact hxy j hj
    | succ l' =>
      have h2 : 2 ≤ 2 ^ (l' + 1) := by
        have : 2 ^ 1 ≤ 2 ^ (l' + 1) := Nat.pow_le_pow_right (by norm_num) (by omega)
        simpa using this
      have hdiv : 2 ^ (l' + 1) / 2 = 2 ^ l' := by
        rw [pow_succ]
        omega
      have hev : 2 ^ (l' + 1) % 2 = 0 := by
        rw [pow_succ]
        omega
      have hstep : ∀ j', j' < 2 ^ (l' + 1) →
          (dwt_step w (2 ^ (l' + 1)) x s).1 j' =
            (dwt_step w (2 ^ (l' + 1)) y t).1 j' :=
        dwt_step_congr w (2 ^ (l' + 1)) x y s t hev (by omega) hxy
      rw [driverAux_succ, driverAux_succ, if_pos h2, if_pos h2, hdiv]
      rcases lt_or_ge j (2 ^ l') with hj' | hj'
      · exact ih l' _ _ _ _
          (fun j' hj'' => hstep j' (by
            have : (2:ℕ) ^ l' ≤ 2 ^ (l' + 1) := Nat.pow_le_pow_right (by norm_num) (by omega)
            omega)) j hj'
      · have hx := driver_untouched w f (2 ^ l')
          (dwt_step w (2 ^ (l' + 1)) x s).1 (dwt_step w (2 ^ (l' + 1)) x s).2 j hj'
        have hy := driver_untouched w f (2 ^ l')
          (dwt_step w (2 ^ (l' + 1)) y t).1 (dwt_step w (2 ^ (l' + 1)) y t).2 j hj'
        rw [hx, hy]
        exact hstep j hj

lemma two_pow_succ_facts (k : ℕ) :
    2 ≤ 2 ^ (k + 1) ∧ 2 ^ (k + 1) / 2 = 2 ^ k ∧ 2 ^ (k + 1) % 2 = 0 ∧ 1 ≤ 2 ^ k := by
  have h : (2 : ℕ) ^ (k + 1) = 2 ^ k * 2 := pow_succ 2 k
  have h1 : 0 < (2 : ℕ) ^ k := pow_pos (by norm_num) k
  omega

lemma dwt_step_fst_high (w : gsl_wavelet) (m : ℕ) (x s : ℕ → Q2) (j : ℕ)
    (hj : m ≤ j) : (dwt_step w m x s).1 j = x j := by
  show (if j < m then fillFrom w m x s 0 (m / 2) j else x j) = x j
  rw [if_neg (by omega)]

lemma aCoef_haar (m i : ℕ) (x : ℕ → Q2) :
    aCoef haarWavelet m x i =
      sqrtHalf * x (buffIdx m 0 i 0) + sqrtHalf * x (buffIdx m 0 i 1) := by
  have hc0 : ch_2.getD 0 0 = sqrtHalf := rfl
  have hc1 : ch_2.getD 1 0 = sqrtHalf := rfl
  show (∑ k in Finset.range 2, ch_2.getD k 0 * x (buffIdx m 0 i k)) = _
  rw [Finset.sum_range_succ, Finset.sum_range_succ, Finset.sum_range_zero, hc0, hc1]
  ring

lemma dCoef_haar (m i : ℕ) (x : ℕ → Q2) :
    dCoef haarWavelet m x i =
      sqrtHalf * x (buffIdx m 0 i 0) - sqrtHalf * x (buffIdx m 0 i 1) := by
  have hc0 : cg_2.getD 0 0 = sqrtHalf := rfl
  have hc1 : cg_2.getD 1 0 = -sqrtHalf := rfl
  show (∑ k in Finset.range 2, cg_2.getD k 0 * x (buffIdx m 0 i k)) = _
  rw [Finset.sum_range_succ, Finset.sum_range_succ, Finset.sum_range_zero, hc0, hc1]
  ring

lemma buffIdx_small (m i k : ℕ) (h : 2 * i + k < m) : buffIdx m 0 i k = 2 * i + k := by
  unfold buffIdx
  have heq : 2 * (i : ℤ) + k - ((0 : ℕ) : ℤ) = 2 * (i : ℤ) + k := by push_cast; ring
  rw [heq, Int.emod_eq_of_lt (by omega) (by exact_mod_cast h)]
  omega

lemma aCoef_haar_small (m i : ℕ) (x : ℕ → Q2) (h : 2 * i + 1 < m) :
    aCoef haarWavelet m x i = sqrtHalf * x (2 * i) + sqrtHalf * x (2 * i + 1) := by
  rw [aCoef_haar, buffIdx_small m i 0 (by omega), buffIdx_small m i 1 (by omega)]
  simp only [Nat.add_zero]

lemma dCoef_haar_small (m i : ℕ) (x : ℕ → Q2) (h : 2 * i + 1 < m) :
    dCoef haarWavelet m x i = sqrtHalf * x (2 * i) - sqrtHalf * x (2 * i + 1) := by
  rw [dCoef_haar, buffIdx_small m i 0 (by omega), buffIdx_small m i 1 (by omega)]
  simp only [Nat.add_zero]

lemma haar_mul_self : sqrtHalf * sqrtHalf + sqrtHalf * sqrtHalf = 1 := by
  show (⟨0, 1/2⟩ * ⟨0, 1/2⟩ + ⟨0, 1/2⟩ * ⟨0, 1/2⟩ : Q2) = 1
  rw [Q2.mul_def, Q2.add_def]
  have h1 : (1 : Q2) = ⟨1, 0⟩ := rfl
  rw [h1, Q2.mk.injEq]
  constructor <;> norm_num

lemma haar_pair (p q : Q2) :
    (sqrtHalf * p + sqrtHalf * q) ^ 2 + (sqrtHalf * p - sqrtHalf * q) ^ 2 =
      p ^ 2 + q ^ 2 := by
  have h := haar_mul_self
  linear_combination (p ^ 2 + q ^ 2) * h

lemma sum_range_add_fun (f : ℕ → Q2) (a : ℕ) :
    ∀ b, ∑ j in Finset.range (a + b), f j =
      (∑ j in Finset.range a, f j) + ∑ j in Finset.range b, f (a + j) := by
  intro b
  induction b with
  | zero => simp
  | succ b ih =>
    rw [show a + (b + 1) = (a + b) + 1 by omega, Finset.sum_range_succ, ih,
      Finset.sum_range_succ]
    ring

lemma sum_range_two_mul (g : ℕ → Q2) :
    ∀ t, ∑ j in Finset.range (2 * t), g j =
      ∑ i in Finset.range t, (g (2 * i) + g (2 * i + 1)) := by
  intro t
  induction t with
  | zero => simp
  | succ t ih =>
    rw [show 2 * (t + 1) = 2 * t + 1 + 1 by ring]
    simp only [Finset.sum_range_succ]
    rw [ih]
    ring

lemma dwt_step_energy (m : ℕ) (x s : ℕ → Q2) (hm2 : m % 2 = 0) :
    ∑ j in Finset.range m, ((dwt_step haarWavelet m x s).1 j) ^ 2 =
      ∑ j in Finset.range m, (x j) ^ 2 := by
  obtain ⟨t, rfl⟩ : ∃ t, m = 2 * t := ⟨m / 2, by omega⟩
  have hdiv : 2 * t / 2 = t := by omega
  have hL : ∑ j in Finset.range (2 * t),
      ((dwt_step haarWavelet (2 * t) x s).1 j) ^ 2 =
      (∑ j in Finset.range t, ((dwt_step haarWavelet (2 * t) x s).1 j) ^ 2) +
        ∑ j in Finset.range t, ((dwt_step haarWavelet (2 * t) x s).1 (t + j)) ^ 2 := by
    have h := sum_range_add_fun (fun j => ((dwt_step haarWavelet (2 * t) x s).1 j) ^ 2) t t
    rw [show t + t = 2 * t by ring] at h
    exact h
  have hA : ∀ j, j < t →
      (dwt_step haarWavelet (2 * t) x s).1 j = aCoef haarWavelet (2 * t) x j := by
    intro j hj
    rw [dwt_step_fst_apply haarWavelet (2 * t) x s (by omega) j, hdiv,
      if_pos hj]
  have hD : ∀ j, j < t →
      (dwt_step haarWavelet (2 * t) x s).1 (t + j) =
        dCoef haarWavelet (2 * t) x j := by
    intro j hj
    rw [dwt_step_fst_apply haarWavelet (2 * t) x s (by omega) (t + j), hdiv,
      if_neg (by omega), if_pos (by omega)]
    congr 1
    omega
  have hSA : ∑ j in Finset.range t, ((dwt_step haarWavelet (2 * t) x s).1 j) ^ 2 =
      ∑ j in Finset.range t, (aCoef haarWavelet (2 * t) x j) ^ 2 :=
    Finset.sum_congr rfl fun j hj => by rw [hA j (Finset.mem_range.mp hj)]
  have hSD : ∑ j in Finset.range t,
      ((dwt_step haarWavelet (2 * t) x s).1 (t + j)) ^ 2 =
      ∑ j in Finset.range t, (dCoef haarWavelet (2 * t) x j) ^ 2 :=
    Finset.sum_congr rfl fun j hj => by rw [hD j (Finset.mem_range.mp hj)]
  rw [hL, hSA, hSD, ← Finset.sum_add_distrib, sum_range_two_mul (fun j => (x j) ^ 2) t]
  apply Finset.sum_congr rfl
  intro i hi
  have hi' : i < t := Finset.mem_range.mp hi
  rw [aCoef_haar_small (2 * t) i x (by omega), dCoef_haar_small (2 * t) i x (by omega)]
  exact haar_pair (x (2 * i)) (x (2 * i + 1))

lemma driver_energy :
    ∀ k fuel n (x s : ℕ → Q2), 2 ^ k ≤ fuel → 2 ^ k ≤ n →
      ∑ j in Finset.range n,
        (driverAux (dwt_step haarWavelet) fuel (2 ^ k) x s j) ^ 2 =
        ∑ j in Finset.range n, (x j) ^ 2 := by
  intro k
  induction k with
  | zero =>
    intro fuel n x s _ _
    rw [show (2 : ℕ) ^ 0 = 1 from rfl]
    rw [driverAux_low _ _ _ _ _ (by norm_num)]
  | succ k ih =>
    intro fuel n x s hf hn
    obtain ⟨h2, hdiv, hev, hone⟩ := two_pow_succ_facts k
    cases fuel with
    | zero => omega
    | succ f =>
      rw [driverAux_succ, if_pos h2, hdiv]
      rw [ih f n _ _ (by omega) (by omega)]
      have hsplit : ∀ F : ℕ → Q2,
          ∑ j in Finset.range n, F j =
            (∑ j in Finset.range (2 ^ (k + 1)), F j) +
              ∑ j in Finset.Ico (2 ^ (k + 1)) n, F j := by
        intro F
        rw [Finset.range_eq_Ico,
          ← Finset.sum_Ico_consecutive F (by omega : 0 ≤ 2 ^ (k + 1)) hn]
      rw [hsplit fun j => ((dwt_step haarWavelet (2 ^ (k + 1)) x s).1 j) ^ 2,
        hsplit fun j => (x j) ^ 2]
      have hpre := dwt_step_energy (2 ^ (k + 1)) x s hev
      have hpost : ∑ j in Finset.Ico (2 ^ (k + 1)) n,
          ((dwt_step haarWavelet (2 ^ (k + 1)) x s).1 j) ^ 2 =
          ∑ j in Finset.Ico (2 ^ (k + 1)) n, (x j) ^ 2 :=
        Finset.sum_congr rfl fun j hj => by
          rw [dwt_step_fst_high haarWavelet (2 ^ (k + 1)) x s j
            (Finset.mem_Ico.mp hj).1]
      rw [hpre, hpost]

lemma numLevelsAux_succ (fuel m : ℕ) :
    numLevelsAux (fuel + 1) m =
      if 2 ≤ m then numLevelsAux fuel (m / 2) + 1 else 0 := rfl

lemma numLevelsAux_low (fuel m : ℕ) (hm : m < 2) : numLevelsAux fuel m = 0 := by
  cases fuel with
  | zero => rfl
  | succ f => rw [numLevelsAux_succ, if_neg (by omega)]

lemma numLevelsAux_pow : ∀ k fuel, 2 ^ k ≤ fuel → numLevelsAux fuel (2 ^ k) = k := by
  intro k
  induction k with
  | zero =>
    intro fuel _
    rw [show (2 : ℕ) ^ 0 = 1 from rfl]
    exact numLevelsAux_low fuel 1 (by norm_num)
  | succ k ih =>
    intro fuel hf
    obtain ⟨h2, hdiv, _, hone⟩ := two_pow_succ_facts k
    cases fuel with
    | zero => omega
    | succ f =>
      rw [numLevelsAux_succ, if_pos h2, hdiv, ih f (by omega)]

lemma numLevels_pow (k : ℕ) : numLevels (2 ^ k) = k :=
  numLevelsAux_pow k (2 ^ k) le_rfl

lemma sqrt_two_sq : Real.sqrt 2 * Real.sqrt 2 = 2 := Real.mul_self_sqrt (by norm_num)

lemma Q2.toReal_add (x y : Q2) : (x + y).toReal = x.toReal + y.toReal := by
  unfold Q2.toReal
  rw [Q2.add_a, Q2.add_b]
  push_cast
  ring

lemma Q2.toReal_mul (x y : Q2) : (x * y).toReal = x.toReal * y.toReal := by
  unfold Q2.toReal
  rw [Q2.mul_a, Q2.mul_b]
  have h2 := sqrt_two_sq
  push_cast
  linear_combination (-((x.b : ℝ) * (y.b : ℝ))) * h2

lemma Q2.toReal_zero : (0 : Q2).toReal = 0 := by
  unfold Q2.toReal
  rw [Q2.zero_a, Q2.zero_b]
  norm_num

lemma Q2.toReal_sq (x : Q2) : (x ^ 2).toReal = x.toReal ^ 2 := by
  rw [pow_two, Q2.toReal_mul, ← pow_two]

lemma toReal_sum_sq (u : ℕ → Q2) :
    ∀ n, ∑ j in Finset.range n, (u j).toReal ^ 2 =
      (∑ j in Finset.range n, (u j) ^ 2).toReal := by
  intro n
  induction n with
  | zero => simp [Q2.toReal_zero]
  | succ n ih =>
    rw [Finset.sum_range_succ, Finset.sum_range_succ, Q2.toReal_add, ← ih,
      Q2.toReal_sq]

lemma FP.sub_val (p q : ℚ) : FP.sub (FP.val p) (FP.val q) = FP.val (p - q) := rfl

lemma FP.blt_val (p q : ℚ) : FP.blt (FP.val p) (FP.val q) = decide (p < q) := rfl

lemma fabsFP_val (p : ℚ) : fabsFP (FP.val p) = FP.val |p| := by
  unfold fabsFP
  rw [FP.blt_val]
  split_ifs with hb
  · have hp : p < 0 := of_decide_eq_true hb
    show FP.val (-p) = FP.val |p|
    rw [abs_of_neg hp]
  · have hp : ¬p < 0 := fun hc => hb (decide_eq_true hc)
    rw [abs_of_nonneg (le_of_not_lt hp)]

lemma similarity_check_val (p q t : ℚ) :
    similarity_check (FP.val p) (FP.val q) (FP.val t) =
      if t < |p - q| then 0 else 1 := by
  unfold similarity_check
  rw [FP.sub_val, fabsFP_val, FP.blt_val]
  by_cases h : t < |p - q|
  · rw [if_pos (decide_eq_true h), if_pos h]
  · rw [if_neg (fun hc => h (of_decide_eq_true hc)), if_neg h]

lemma similarity_check_nan_sub (x y : FP) (t : ℚ) (h : FP.sub x y = FP.nan) :
    similarity_check x y (FP.val t) = 1 := by
  unfold similarity_check
  rw [h]
  rfl

lemma mainError_zero (ds dv : ℕ → FP) : mainError ds dv 0 = 0 := rfl

lemma mainError_succ (ds dv : ℕ → FP) (n : ℕ) :
    mainError ds dv (n + 1) =
      if similarity_check (ds n) (dv n) (FP.val THRESHOLD) = 0 then 1
      else mainError ds dv n := rfl

lemma similarity_check_valBuf (a b : ℕ → ℚ) (n : ℕ) :
    similarity_check (valBuf a n) (valBuf b n) (FP.val THRESHOLD) =
      if (1 / 100 : ℚ) < |a n - b n| then 0 else 1 := by
  show similarity_check (FP.val (a n)) (FP.val (b n)) (FP.val THRESHOLD) = _
  rw [similarity_check_val]
  rfl

lemma mainError_val_cases (a b : ℕ → ℚ) :
    ∀ n, (mainError (valBuf a) (valBuf b) n = 1 ∧
            ∃ i, i < n ∧ (1 / 100 : ℚ) < |a i - b i|) ∨
         (mainError (valBuf a) (valBuf b) n = 0 ∧
            ∀ i, i < n → ¬(1 / 100 : ℚ) < |a i - b i|) := by
  intro n
  induction n with
  | zero => exact Or.inr ⟨rfl, fun i hi => absurd hi (by omega)⟩
  | succ n ih =>
    rw [mainError_succ, similarity_check_valBuf]
    by_cases h : (1 / 100 : ℚ) < |a n - b n|
    · rw [if_pos h, if_pos rfl]
      exact Or.inl ⟨rfl, n, by omega, h⟩
    · rw [if_neg h, if_neg (by norm_num : ¬(1 : ℤ) = 0)]
      rcases ih with ⟨h1, i, hi, hgt⟩ | ⟨h0, hall⟩
      · exact Or.inl ⟨h1, i, by omega, hgt⟩
      · refine Or.inr ⟨h0, fun i hi hgt => ?_⟩
        have hcase : i < n ∨ i = n := by omega
        rcases hcase with hc | hc
        · exact hall i hc hgt
        · exact h (hc ▸ hgt)

lemma sH_one_one : sqrtHalf * 1 + sqrtHalf * 1 = (⟨0, 1⟩ : Q2) := by
  rw [mul_one]
  show (⟨0, 1 / 2⟩ + ⟨0, 1 / 2⟩ : Q2) = _
  rw [Q2.add_def, Q2.mk.injEq]
  constructor <;> norm_num

lemma sH_r2_r2 : sqrtHalf * (⟨0, 1⟩ : Q2) + sqrtHalf * ⟨0, 1⟩ = (⟨2, 0⟩ : Q2) := by
  show (⟨0, 1 / 2⟩ * ⟨0, 1⟩ + ⟨0, 1 / 2⟩ * ⟨0, 1⟩ : Q2) = _
  rw [Q2.mul_def, Q2.add_def, Q2.mk.injEq]
  constructor <;> norm_num

lemma sH_two_two : sqrtHalf * (⟨2, 0⟩ : Q2) + sqrtHalf * ⟨2, 0⟩ = (⟨0, 2⟩ : Q2) := by
  show (⟨0, 1 / 2⟩ * ⟨2, 0⟩ + ⟨0, 1 / 2⟩ * ⟨2, 0⟩ : Q2) = _
  rw [Q2.mul_def, Q2.add_def, Q2.mk.injEq]
  constructor <;> norm_num

lemma lvlA_low (j : ℕ) (h : j < 4) : lvlA j = ⟨0, 1⟩ := by
  simp only [lvlA]
  rw [if_pos h]

lemma lvlA_mid (j : ℕ) (h4 : ¬j < 4) (h8 : j < 8) : lvlA j = 0 := by
  simp only [lvlA]
  rw [if_neg h4, if_pos h8]

lemma lvlA_high (j : ℕ) (h4 : ¬j < 4) (h8 : ¬j < 8) : lvlA j = 1 := by
  simp only [lvlA]
  rw [if_neg h4, if_neg h8]

lemma lvlB_low (j : ℕ) (h : j < 2) : lvlB j = ⟨2, 0⟩ := by
  simp only [lvlB]
  rw [if_pos h]

lemma lvlB_mid (j : ℕ) (h2 : ¬j < 2) (h8 : j < 8) : lvlB j = 0 := by
  simp only [lvlB]
  rw [if_neg h2, if_pos h8]

lemma lvlB_high (j : ℕ) (h2 : ¬j < 2) (h8 : ¬j < 8) : lvlB j = 1 := by
  simp only [lvlB]
  rw [if_neg h2, if_neg h8]

lemma lvlC_zero : lvlC 0 = ⟨0, 2⟩ := by
  simp only [lvlC]
  norm_num

lemma lvlC_mid (j : ℕ) (h0 : ¬j = 0) (h8 : j < 8) : lvlC j = 0 := by
  simp only [lvlC]
  rw [if_neg h0, if_pos h8]

lemma lvlC_high (j : ℕ) (h0 : ¬j = 0) (h8 : ¬j < 8) : lvlC j = 1 := by
  simp only [lvlC]
  rw [if_neg h0, if_neg h8]

lemma lvl1_eq (s : ℕ → Q2) : (dwt_step haarWavelet 8 bufOnes s).1 = lvlA := by
  funext j
  rw [dwt_step_fst_apply haarWavelet 8 bufOnes s (by norm_num) j,
    show (8 : ℕ) / 2 = 4 from rfl]
  by_cases h4 : j < 4
  · rw [if_pos h4, aCoef_haar_small 8 j bufOnes (by omega), lvlA_low j h4]
    exact sH_one_one
  · rw [if_neg h4]
    by_cases h8 : j < 8
    · rw [if_pos h8, dCoef_haar_small 8 (j - 4) bufOnes (by omega),
        lvlA_mid j h4 h8]
      exact sub_self _
    · rw [if_neg h8, lvlA_high j h4 h8]
      rfl

lemma lvl2_eq (s : ℕ → Q2) : (dwt_step haarWavelet 4 lvlA s).1 = lvlB := by
  funext j
  rw [dwt_step_fst_apply haarWavelet 4 lvlA s (by norm_num) j,
    show (4 : ℕ) / 2 = 2 from rfl]
  by_cases h2 : j < 2
  · rw [if_pos h2, aCoef_haar_small 4 j lvlA (by omega),
      lvlA_low (2 * j) (by omega), lvlA_low (2 * j + 1) (by omega),
      lvlB_low j h2]
    exact sH_r2_r2
  · rw [if_neg h2]
    by_cases h4 : j < 4
    · rw [if_pos h4, dCoef_haar_small 4 (j - 2) lvlA (by omega),
        lvlA_low (2 * (j - 2)) (by omega), lvlA_low (2 * (j - 2) + 1) (by omega),
        lvlB_mid j h2 (by omega)]
      exact sub_self _
    · rw [if_neg h4]
      by_cases h8 : j < 8
      · rw [lvlA_mid j h4 h8, lvlB_mid j h2 h8]
      · rw [lvlA_high j h4 h8, lvlB_high j h2 h8]

lemma lvl3_eq (s : ℕ → Q2) : (dwt_step haarWavelet 2 lvlB s).1 = lvlC := by
  funext j
  rw [dwt_step_fst_apply haarWavelet 2 lvlB s (by norm_num) j,
    show (2 : ℕ) / 2 = 1 from rfl]
  by_cases h1 : j < 1
  · rw [if_pos h1, aCoef_haar_small 2 j lvlB (by omega),
      lvlB_low (2 * j) (by omega), lvlB_low (2 * j + 1) (by omega),
      show j = 0 by omega, lvlC_zero]
    exact sH_two_two
  · rw [if_neg h1]
    by_cases h2 : j < 2
    · rw [if_pos h2, dCoef_haar_small 2 (j - 1) lvlB (by omega),
        lvlB_low (2 * (j - 1)) (by omega), lvlB_low (2 * (j - 1) + 1) (by omega),
        lvlC_mid j (by omega) (by omega)]
      exact sub_self _
    · rw [if_neg h2]
      by_cases h8 : j < 8
      · rw [lvlB_mid j (by omega) h8, lvlC_mid j (by omega) h8]
      · rw [lvlB_high j (by omega) h8, lvlC_high j (by omega) h8]

lemma transform8 (s : ℕ → Q2) : gsl_wavelet_transform 8 bufOnes s = lvlC := by
  show driverAux (dwt_step haarWavelet) 8 8 bufOnes s = lvlC
  rw [driverAux_succ, if_pos (by norm_num), show (8 : ℕ) / 2 = 4 from rfl, lvl1_eq]
  rw [driverAux_succ, if_pos (by norm_num), show (4 : ℕ) / 2 = 2 from rfl, lvl2_eq]
  rw [driverAux_succ, if_pos (by norm_num), show (2 : ℕ) / 2 = 1 from rfl, lvl3_eq]
  rw [driverAux_low _ _ _ _ _ (by norm_num)]

lemma Q2.toReal_neg (x : Q2) : (-x).toReal = -x.toReal := by
  unfold Q2.toReal
  rw [Q2.neg_a, Q2.neg_b]
  push_cast
  ring

lemma sqrtHalf_toReal_abs : |Q2.toReal sqrtHalf| = (Real.sqrt 2)⁻¹ := by
  have h2 := sqrt_two_sq
  have hpos : (0 : ℝ) < Real.sqrt 2 := Real.sqrt_pos.mpr (by norm_num)
  show |((0 : ℚ) : ℝ) + ((1 / 2 : ℚ) : ℝ) * Real.sqrt 2| = (Real.sqrt 2)⁻¹
  push_cast
  rw [abs_of_nonneg (by positivity)]
  rw [inv_eq_one_div, eq_div_iff (ne_of_gt hpos)]
  nlinarith [h2]

/-- C1: for every valid length `n = 2^k` (power of two, `n ≥ 2`), every lane
width `vl ≥ 1` and every finite-valued input buffer `x` (modelled
`Q2`-valued), the scalar transform `gsl_wavelet_transform` and the vector
transform `gsl_wavelet_transform_vector`, applied to identical copies of
`x`, agree at every index `i < n` within absolute tolerance `0.01` (in the
exact-arithmetic model they are equal, so the difference is `0`). -/
theorem C1_scalar_vector_agree (k vl : ℕ) (x s : ℕ → Q2) (i : ℕ)
    (hk : 1 ≤ k) (hvl : 1 ≤ vl) (hi : i < 2 ^ k) :
    |(gsl_wavelet_transform (2 ^ k) x s i).toReal -
      (gsl_wavelet_transform_vector vl (2 ^ k) x s i).toReal| ≤ 1 / 100 := by
  rw [transform_vector_eq, sub_self, abs_zero]
  norm_num

theorem C1_scalar_vector_agree_witness :
    1 ≤ 1 ∧ 1 ≤ 2 ∧ 0 < 2 ^ 1 ∧
      |(gsl_wavelet_transform (2 ^ 1) bufRamp bufZero 0).toReal -
        (gsl_wavelet_transform_vector 2 (2 ^ 1) bufRamp bufZero 0).toReal| ≤ 1 / 100 :=
  ⟨by norm_num, by norm_num, by norm_num,
    C1_scalar_vector_agree 1 2 bufRamp bufZero 0 (by norm_num) (by norm_num)
      (by norm_num)⟩

/-- C2: the filter bank is the length-2 Haar pair: `ch_2` and `cg_2` both
have length `nc = 2`, each of the four coefficients has magnitude `1/√2`,
and the orthogonality relation `cg_2[i] = (-1)^i * ch_2[nc-1-i]` holds for
`i = 0, 1`. -/
theorem C2_haar_filter_bank :
    ch_2.length = 2 ∧ cg_2.length = 2 ∧
    |(ch_2.getD 0 0).toReal| = (Real.sqrt 2)⁻¹ ∧
    |(ch_2.getD 1 0).toReal| = (Real.sqrt 2)⁻¹ ∧
    |(cg_2.getD 0 0).toReal| = (Real.sqrt 2)⁻¹ ∧
    |(cg_2.getD 1 0).toReal| = (Real.sqrt 2)⁻¹ ∧
    cg_2.getD 0 0 = (-1) ^ 0 * ch_2.getD (2 - 1 - 0) 0 ∧
    cg_2.getD 1 0 = (-1) ^ 1 * ch_2.getD (2 - 1 - 1) 0 := by
  have habs : |Q2.toReal (-sqrtHalf)| = (Real.sqrt 2)⁻¹ := by
    rw [Q2.toReal_neg, abs_neg, sqrtHalf_toReal_abs]
  refine ⟨rfl, rfl, sqrtHalf_toReal_abs, sqrtHalf_toReal_abs,
    sqrtHalf_toReal_abs, habs, ?_, ?_⟩
  · show sqrtHalf = (-1) ^ 0 * sqrtHalf
    rw [pow_zero, one_mul]
  · show -sqrtHalf = (-1) ^ 1 * sqrtHalf
    rw [pow_one, neg_one_mul]

/-- C3: for every even active length `m ≥ nc = 2`, one scalar `dwt_step`
computes, for every output pair index `i < m/2`, the spec sums
`a[i] = Σ_{k<2} h[k]·x[(2i+k-offset) mod m]` and
`d[i] = Σ_{k<2} g[k]·x[(2i+k-offset) mod m]` with periodic indexing that
stays inside the active prefix `[0, m)`, writes `a[i]` to scratch position
`i` and `d[i]` to scratch position `m/2 + i`, copies the `m` scratch
entries back into the first `m` buffer entries, and leaves positions
`j ≥ m` of buffer and scratch untouched. -/
theorem C3_dwt_step_spec (m : ℕ) (x s : ℕ → Q2) (hm2 : 2 ≤ m) (hev : m % 2 = 0) :
    (∀ i, i < m / 2 →
      (dwt_step haarWavelet m x s).2 i = aCoef haarWavelet m x i ∧
      (dwt_step haarWavelet m x s).2 (m / 2 + i) = dCoef haarWavelet m x i) ∧
    (∀ i, aCoef haarWavelet m x i =
      ∑ k in Finset.range 2, ch_2.getD k 0 * x (buffIdx m 0 i k)) ∧
    (∀ i, dCoef haarWavelet m x i =
      ∑ k in Finset.range 2, cg_2.getD k 0 * x (buffIdx m 0 i k)) ∧
    (∀ i k, buffIdx m 0 i k < m) ∧
    (∀ j, j < m →
      (dwt_step haarWavelet m x s).1 j = (dwt_step haarWavelet m x s).2 j) ∧
    (∀ j, m ≤ j → (dwt_step haarWavelet m x s).1 j = x j ∧
      (dwt_step haarWavelet m x s).2 j = s j) := by
  refine ⟨?_, fun i => rfl, fun i => rfl, fun i k => buffIdx_lt m 0 i k (by omega),
    ?_, ?_⟩
  · intro i hi
    constructor
    · rw [dwt_step_snd_apply haarWavelet m x s hev i, if_pos hi]
    · rw [dwt_step_snd_apply haarWavelet m x s hev (m / 2 + i),
        if_neg (by omega), if_pos (by omega)]
      congr 1
      omega
  · intro j hj
    show (if j < m then fillFrom haarWavelet m x s 0 (m / 2) j else x j) =
      fillFrom haarWavelet m x s 0 (m / 2) j
    rw [if_pos hj]
  · intro j hj
    refine ⟨dwt_step_fst_high haarWavelet m x s j hj, ?_⟩
    rw [dwt_step_snd_apply haarWavelet m x s hev j, if_neg (by omega),
      if_neg (by omega)]

theorem C3_dwt_step_spec_witness :
    2 ≤ 4 ∧ 4 % 2 = 0 ∧
      (∀ i, i < 4 / 2 →
        (dwt_step haarWavelet 4 bufRamp bufZero).2 i =
          aCoef haarWavelet 4 bufRamp i ∧
        (dwt_step haarWavelet 4 bufRamp bufZero).2 (4 / 2 + i) =
          dCoef haarWavelet 4 bufRamp i) :=
  ⟨by norm_num, by norm_num,
    (C3_dwt_step_spec 4 bufRamp bufZero (by norm_num) (by norm_num)).1⟩

/-- C4: each transform driver terminates: for `n = 2^k` (`k ≥ 1`) the
pyramid loop performs exactly `k` levels (`numLevels`), stopping exactly
when the active length falls below `nc = 2`; for `n = 2` both drivers
perform exactly one level (one step kernel invocation); below `nc = 2` the
buffer is left untouched; and any fuel budget `≥ n` yields the same run,
i.e. the loop genuinely finishes within `n` iterations. -/
theorem C4_driver_terminates (k : ℕ) (hk : 1 ≤ k) :
    numLevels (2 ^ k) = k ∧
    numLevels 2 = 1 ∧
    (∀ x s : ℕ → Q2,
      gsl_wavelet_transform 2 x s = (dwt_step haarWavelet 2 x s).1) ∧
    (∀ vl : ℕ, ∀ x s : ℕ → Q2, gsl_wavelet_transform_vector vl 2 x s =
      (dwt_step_vector vl haarWavelet 2 x s).1) ∧
    (∀ fuel : ℕ, ∀ x s : ℕ → Q2,
      driverAux (dwt_step haarWavelet) fuel 1 x s = x) ∧
    (∀ fuel : ℕ, ∀ x s : ℕ → Q2, 2 ^ k ≤ fuel →
      driverAux (dwt_step haarWavelet) fuel (2 ^ k) x s =
        gsl_wavelet_transform (2 ^ k) x s) := by
  refine ⟨numLevels_pow k, numLevels_pow 1, ?_, ?_, ?_, ?_⟩
  · intro x s
    show driverAux (dwt_step haarWavelet) 2 2 x s = (dwt_step haarWavelet 2 x s).1
    rw [driverAux_succ, if_pos (by norm_num), show (2 : ℕ) / 2 = 1 from rfl,
      driverAux_low _ _ _ _ _ (by norm_num)]
  · intro vl x s
    show driverAux (dwt_step_vector vl haarWavelet) 2 2 x s =
      (dwt_step_vector vl haarWavelet 2 x s).1
    rw [driverAux_succ, if_pos (by norm_num), show (2 : ℕ) / 2 = 1 from rfl,
      driverAux_low _ _ _ _ _ (by norm_num)]
  · intro fuel x s
    exact driverAux_low _ fuel 1 x s (by norm_num)
  · intro fuel x s hf
    exact driverAux_fuel_eq (dwt_step haarWavelet) fuel (2 ^ k) (2 ^ k) x s hf
      le_rfl

theorem C4_driver_terminates_witness :
    numLevels 2 = 1 ∧ numLevels (2 ^ 1) = 1 :=
  ⟨rfl, (C4_driver_terminates 1 (by norm_num)).1⟩

/-- C5: energy preservation: for every valid length `n = 2^k` (`k ≥ 1`),
every input buffer and every scratch buffer, the sum of squares (as real
numbers) of the fully transformed buffer equals the sum of squares of the
input buffer — exactly, in the idealized arithmetic of the orthogonal Haar
pair, hence within every floating-point tolerance. -/
theorem C5_energy_preserved (k : ℕ) (x s : ℕ → Q2) (hk : 1 ≤ k) :
    ∑ j in Finset.range (2 ^ k),
      (gsl_wavelet_transform (2 ^ k) x s j).toReal ^ 2 =
      ∑ j in Finset.range (2 ^ k), (x j).toReal ^ 2 := by
  rw [toReal_sum_sq, toReal_sum_sq]
  congr 1
  exact driver_energy k (2 ^ k) (2 ^ k) x s le_rfl le_rfl

theorem C5_energy_preserved_witness :
    1 ≤ 1 ∧
      ∑ j in Finset.range (2 ^ 1),
        (gsl_wavelet_transform (2 ^ 1) bufRamp bufZero j).toReal ^ 2 =
        ∑ j in Finset.range (2 ^ 1), (bufRamp j).toReal ^ 2 :=
  ⟨by norm_num, C5_energy_preserved 1 bufRamp bufZero (by norm_num)⟩

/-- C6: the all-ones input of length `n = 8` transforms, under both the
scalar and the vector kernel (any lane width `vl ≥ 1`, any scratch), to
`[2√2, 0, 0, 0, 0, 0, 0, 0]` within the stated tolerance `0.01`: all the
energy ends in the coarsest approximation coefficient, zero detail at every
level. -/
theorem C6_ones8_scenario (vl i : ℕ) (s : ℕ → Q2) (hvl : 1 ≤ vl) (hi : i < 8) :
    |(gsl_wavelet_transform 8 bufOnes s i).toReal -
      (if i = 0 then 2 * Real.sqrt 2 else 0)| ≤ 1 / 100 ∧
    |(gsl_wavelet_transform_vector vl 8 bufOnes s i).toReal -
      (if i = 0 then 2 * Real.sqrt 2 else 0)| ≤ 1 / 100 := by
  have hs : ∀ i, i < 8 →
      |(gsl_wavelet_transform 8 bufOnes s i).toReal -
        (if i = 0 then 2 * Real.sqrt 2 else 0)| ≤ 1 / 100 := by
    intro i hi
    rw [transform8]
    by_cases h0 : i = 0
    · subst h0
      rw [lvlC_zero, if_pos rfl]
      have hval : (Q2.toReal ⟨0, 2⟩) - 2 * Real.sqrt 2 = 0 := by
        show ((0 : ℚ) : ℝ) + ((2 : ℚ) : ℝ) * Real.sqrt 2 - 2 * Real.sqrt 2 = 0
        push_cast
        ring
      rw [hval, abs_zero]
      norm_num
    · rw [lvlC_mid i h0 hi, if_neg h0, Q2.toReal_zero, sub_zero, abs_zero]
      norm_num
  refine ⟨hs i hi, ?_⟩
  rw [transform_vector_eq]
  exact hs i hi

theorem C6_ones8_scenario_witness :
    1 ≤ 1 ∧ 0 < 8 ∧
      (|(gsl_wavelet_transform 8 bufOnes bufZero 0).toReal -
        (if 0 = 0 then 2 * Real.sqrt 2 else 0)| ≤ 1 / 100 ∧
       |(gsl_wavelet_transform_vector 1 8 bufOnes bufZero 0).toReal -
        (if 0 = 0 then 2 * Real.sqrt 2 else 0)| ≤ 1 / 100) :=
  ⟨by norm_num, by norm_num,
    C6_ones8_scenario 1 0 bufZero (by norm_num) (by norm_num)⟩

/-- C7: determinism: for every valid length `n = 2^k`, if two input buffers
hold identical contents on `[0, n)` then the scalar transform produces
identical (exact, i.e. bitwise in the float reading) outputs on `[0, n)`,
and so does the vector transform for every lane width — regardless of the
(possibly different, possibly dirty) scratch buffer contents, which is
exactly the situation of the two back-to-back calls in `main`. -/
theorem C7_deterministic (k : ℕ) (x y s t : ℕ → Q2) (hk : 1 ≤ k)
    (hxy : ∀ j, j < 2 ^ k → x j = y j) :
    (∀ j, j < 2 ^ k →
      gsl_wavelet_transform (2 ^ k) x s j = gsl_wavelet_transform (2 ^ k) y t j) ∧
    (∀ vl : ℕ, ∀ j, j < 2 ^ k →
      gsl_wavelet_transform_vector vl (2 ^ k) x s j =
        gsl_wavelet_transform_vector vl (2 ^ k) y t j) := by
  have hmain := driver_local haarWavelet (2 ^ k) k x y s t hxy
  refine ⟨hmain, fun vl j hj => ?_⟩
  rw [transform_vector_eq, transform_vector_eq]
  exact hmain j hj

theorem C7_deterministic_witness :
    1 ≤ 1 ∧
      (∀ j, j < 2 ^ 1 →
        gsl_wavelet_transform (2 ^ 1) bufRamp bufZero j =
          gsl_wavelet_transform (2 ^ 1) bufRamp bufOnes j) :=
  ⟨by norm_num,
    (C7_deterministic 1 bufRamp bufRamp bufZero bufOnes (by norm_num)
      fun j _ => rfl).1⟩

/-- C8: the wavelet descriptor lookup returns the Haar tuple
`(h, g, nc, offset) = (ch_2, cg_2, 2, 0)` for the one supported name and
fails (returns `none`) for every unrecognized name. -/
theorem C8_wavelet_lookup :
    wavelet_init "haar" = some haarWavelet ∧
    haarWavelet.h1 = ch_2 ∧ haarWavelet.g1 = cg_2 ∧
    haarWavelet.nc = 2 ∧ haarWavelet.offset = 0 ∧
    ∀ s : String, s ≠ "haar" → wavelet_init s = none := by
  refine ⟨?_, rfl, rfl, rfl, rfl, ?_⟩
  · unfold wavelet_init
    rw [if_pos rfl]
  · intro s hs
    unfold wavelet_init
    rw [if_neg hs]

theorem C8_wavelet_lookup_witness :
    ("db2" : String) ≠ "haar" ∧ wavelet_init "db2" = none :=
  ⟨by decide, C8_wavelet_lookup.2.2.2.2.2 "db2" (by decide)⟩

/-- C9: with both transform output buffers holding (rational) values,
`main` returns a nonzero exit code iff some index `i < n` has
`|data_s[i] - data_v[i]| > 0.01`; it returns `0` iff every index passes;
and once the error flag is set after a prefix of the loop it stays set. -/
theorem C9_main_error_flag (n : ℕ) (a b : ℕ → ℚ) :
    (mainError (valBuf a) (valBuf b) n ≠ 0 ↔
      ∃ i, i < n ∧ (1 / 100 : ℚ) < |a i - b i|) ∧
    (mainError (valBuf a) (valBuf b) n = 0 ↔
      ∀ i, i < n → |a i - b i| ≤ 1 / 100) ∧
    (∀ m, m ≤ n → mainError (valBuf a) (valBuf b) m = 1 →
      mainError (valBuf a) (valBuf b) n = 1) := by
  refine ⟨⟨?_, ?_⟩, ⟨?_, ?_⟩, ?_⟩
  · intro hne
    rcases mainError_val_cases a b n with ⟨_, hex⟩ | ⟨h0, _⟩
    · exact hex
    · exact absurd h0 hne
  · rintro ⟨i, hi, hgt⟩
    rcases mainError_val_cases a b n with ⟨h1, _⟩ | ⟨_, hall⟩
    · rw [h1]
      norm_num
    · exact absurd hgt (hall i hi)
  · intro h0 i hi
    rcases mainError_val_cases a b n with ⟨h1, _⟩ | ⟨_, hall⟩
    · rw [h0] at h1
      norm_num at h1
    · exact le_of_not_lt (hall i hi)
  · intro hall
    rcases mainError_val_cases a b n with ⟨_, i, hi, hgt⟩ | ⟨h0, _⟩
    · exact absurd hgt (not_lt.mpr (hall i hi))
    · exact h0
  · intro m hm h1m
    rcases mainError_val_cases a b m with ⟨_, i, hi, hgt⟩ | ⟨h0, _⟩
    · rcases mainError_val_cases a b n with ⟨hn1, _⟩ | ⟨_, halln⟩
      · exact hn1
      · exact absurd hgt (halln i (by omega))
    · rw [h0] at h1m
      norm_num at h1m

theorem C9_main_error_flag_witness :
    (1 / 100 : ℚ) < |spikeQ 1 - zeroQ 1| ∧
      mainError (valBuf spikeQ) (valBuf zeroQ) 2 ≠ 0 :=
  ⟨by norm_num [spikeQ, zeroQ],
    (C9_main_error_flag 2 spikeQ zeroQ).1.mpr
      ⟨1, by norm_num, by norm_num [spikeQ, zeroQ]⟩⟩

/-- C10: NaN mismatches are never flagged: for every non-negative
threshold, if `a - b` is NaN (for example because either output value is
NaN), `similarity_check` returns `1` (pass), because the comparison
`FABS(diff) > threshold` is false for NaN. -/
theorem C10_nan_passes (x y : FP) (t : ℚ) (ht : 0 ≤ t)
    (h : FP.sub x y = FP.nan) : similarity_check x y (FP.val t) = 1 :=
  similarity_check_nan_sub x y t h

theorem C10_nan_passes_witness :
    (0 : ℚ) ≤ 0 ∧ FP.sub FP.nan (FP.val 0) = FP.nan ∧
      similarity_check FP.nan (FP.val 0) (FP.val 0) = 1 :=
  ⟨le_rfl, rfl, C10_nan_passes FP.nan (FP.val 0) 0 le_rfl rfl⟩

end DWT
